import Mathlib

/-!
Shallow embedding of `pyvmomi_tools/extensions/credstore.py`: the
`PasswordEntry` deobfuscation algorithm (Java-style 32-bit string hash,
constant-byte XOR keystream, NUL-termination rule) and the `VICredStore`
host-keyed mapping with its lookup and enumeration operations.

Python strings are modelled as Lean `String`s; `ord` iteration over a
Python string becomes `strCodes`, the list of code points.  Python
exceptions raised by the modelled code paths (`HostNotFoundException`,
and the `binascii.Error` / `UnicodeDecodeError` raised inside
`_deobfuscate`) become `Except CredError` values.
-/

namespace CredStore

/-- Code points of a string, as iterated by Python's `ord` over a `str` in
`_compute_hash` and `_deobfuscate`. -/
def strCodes (s : String) : List Nat := s.data.map Char.toNat

/-- One normalization step of `PasswordEntry._compute_hash`.  The Python
source tests `hash_value & 0x80000000` on an arbitrary-precision
two's-complement integer (bit 31 of `v`, i.e. `v mod 2^32 >= 2^31`); if set
it runs `hash_value |= ~0x7FFFFFFF` (keep the low 31 bits, force the sign:
`v mod 2^31 - 2^31`), otherwise `hash_value &= 0x7FFFFFFF` (keep the low 31
bits: `v mod 2^31`).  Here those bit operations are expressed
arithmetically over `Int`, where `%` is Euclidean `emod` exactly as
Python's `%` on a positive modulus. -/
def signExtend32 (v : Int) : Int :=
  if 2147483648 ≤ v % 4294967296 then v % 2147483648 - 2147483648
  else v % 2147483648

/-- `PasswordEntry._compute_hash`: `hash_value = 0`, then for each
character `hash_value = hash_value * 31 + ord(c)` followed by the 32-bit
sign-extension normalization. -/
def computeHash (text : List Nat) : Int :=
  text.foldl (fun h c => signExtend32 (h * 31 + (c : Int))) 0

/-- Errors surfaced by the modelled store operations: `hostNotFound` is
`HostNotFoundException` from `get_userpwd`; `malformedEntry` is the
base64 / UTF-8 decode failure (`binascii.Error` / `UnicodeDecodeError`)
raised inside `_deobfuscate`, the error the spec names `MalformedEntry`. -/
inductive CredError where
  | hostNotFound
  | malformedEntry
deriving DecidableEq

/-- Tokens of `base64.b64decode`'s scanner: a 6-bit alphabet value or the
padding character `=`. -/
inductive B64Tok where
  | val (v : Nat)
  | pad
deriving DecidableEq

/-- Classification of one character by `base64.b64decode`: standard
alphabet characters map to their 6-bit value, `=` to padding, and any
other character is skipped (Python's default non-validating mode discards
characters outside the alphabet). -/
def b64CharVal (c : Char) : Option B64Tok :=
  if c = '=' then some B64Tok.pad
  else if 'A' ≤ c ∧ c ≤ 'Z' then some (B64Tok.val (c.toNat - 65))
  else if 'a' ≤ c ∧ c ≤ 'z' then some (B64Tok.val (c.toNat - 71))
  else if '0' ≤ c ∧ c ≤ '9' then some (B64Tok.val (c.toNat + 4))
  else if c = '+' then some (B64Tok.val 62)
  else if c = '/' then some (B64Tok.val 63)
  else none

/-- Decoding loop of `binascii.a2b_base64` in its default non-strict
mode, translated state for state: `quadPos` is the position inside the
current group of four characters, `leftchar` the pending bits of the
previous character, `pads` the run of padding characters seen at quad
position two or more.  A data character emits a byte at quad positions
one to three (`leftchar << 2 | v >> 4`, `leftchar << 4 | v >> 2`,
`leftchar << 6 | v`); a `=` at quad position below two is ignored, while
at position two or three it ends decoding successfully once
`quadPos + pads` reaches four; characters outside the alphabet are
skipped without resetting `pads`; input ending at a nonzero quad
position is an `Incorrect padding` error (`none`). -/
def a2bBase64 : Nat → Nat → Nat → List Char → Option (List Nat)
  | quadPos, _, _, [] => if quadPos = 0 then some [] else none
  | quadPos, leftchar, pads, c :: rest =>
      match b64CharVal c with
      | some B64Tok.pad =>
          if 2 ≤ quadPos then
            if 4 ≤ quadPos + (pads + 1) then some []
            else a2bBase64 quadPos leftchar (pads + 1) rest
          else a2bBase64 quadPos leftchar pads rest
      | some (B64Tok.val v) =>
          if quadPos = 0 then a2bBase64 1 v 0 rest
          else if quadPos = 1 then
            (a2bBase64 2 (v % 16) 0 rest).map (fun bs => (leftchar * 4 + v / 16) :: bs)
          else if quadPos = 2 then
            (a2bBase64 3 (v % 4) 0 rest).map (fun bs => (leftchar * 16 + v / 4) :: bs)
          else
            (a2bBase64 0 0 0 rest).map (fun bs => (leftchar * 64 + v) :: bs)
      | none => a2bBase64 quadPos leftchar pads rest

/-- `base64.b64decode` on a string: encode the input as ASCII (a
`ValueError` — `none` — when any character is outside ASCII) and run
`binascii.a2b_base64` from the initial state. -/
def b64decode (s : String) : Option (List Nat) :=
  if s.data.all (fun c => c.toNat < 128) then a2bBase64 0 0 0 s.data else none

/-- Continuation handling for a two-byte UTF-8 sequence with lead byte
`b`: one continuation byte in `[0x80, 0xC0)` yields the code point and
the remaining bytes. -/
def utf8Step2 (b : Nat) : List Nat → Option (Nat × List Nat)
  | c1 :: rest1 =>
      if 0x80 ≤ c1 ∧ c1 < 0xC0 then some ((b - 0xC0) * 64 + (c1 - 0x80), rest1)
      else none
  | [] => none

/-- Continuation handling for a three-byte UTF-8 sequence with lead byte
`b`: two continuation bytes, rejecting overlong forms (below `0x800`) and
surrogates. -/
def utf8Step3 (b : Nat) : List Nat → Option (Nat × List Nat)
  | c1 :: c2 :: rest1 =>
      if 0x80 ≤ c1 ∧ c1 < 0xC0 ∧ 0x80 ≤ c2 ∧ c2 < 0xC0 then
        if 0x800 ≤ (b - 0xE0) * 4096 + (c1 - 0x80) * 64 + (c2 - 0x80) ∧
            ¬ (0xD800 ≤ (b - 0xE0) * 4096 + (c1 - 0x80) * 64 + (c2 - 0x80) ∧
               (b - 0xE0) * 4096 + (c1 - 0x80) * 64 + (c2 - 0x80) ≤ 0xDFFF) then
          some ((b - 0xE0) * 4096 + (c1 - 0x80) * 64 + (c2 - 0x80), rest1)
        else none
      else none
  | _ => none

/-- Continuation handling for a four-byte UTF-8 sequence with lead byte
`b`: three continuation bytes, code point in `[0x10000, 0x10FFFF]`. -/
def utf8Step4 (b : Nat) : List Nat → Option (Nat × List Nat)
  | c1 :: c2 :: c3 :: rest1 =>
      if 0x80 ≤ c1 ∧ c1 < 0xC0 ∧ 0x80 ≤ c2 ∧ c2 < 0xC0 ∧ 0x80 ≤ c3 ∧ c3 < 0xC0 then
        if 0x10000 ≤ (b - 0xF0) * 262144 + (c1 - 0x80) * 4096 + (c2 - 0x80) * 64 + (c3 - 0x80) ∧
            (b - 0xF0) * 262144 + (c1 - 0x80) * 4096 + (c2 - 0x80) * 64 + (c3 - 0x80) ≤ 0x10FFFF then
          some ((b - 0xF0) * 262144 + (c1 - 0x80) * 4096 + (c2 - 0x80) * 64 + (c3 - 0x80), rest1)
        else none
      else none
  | _ => none

/-- Decode one UTF-8 scalar value from the front of a byte list: lead
bytes below `0x80` stand alone; `0x80`–`0xC1` are stray continuations or
overlong two-byte leads; `0xC2`–`0xDF`, `0xE0`–`0xEF` and `0xF0`–`0xF4`
open two-, three- and four-byte sequences; anything higher is invalid. -/
def utf8Step : List Nat → Option (Nat × List Nat)
  | [] => none
  | b :: rest =>
      if b < 0x80 then some (b, rest)
      else if b < 0xC2 then none
      else if b < 0xE0 then utf8Step2 b rest
      else if b < 0xF0 then utf8Step3 b rest
      else if b < 0xF5 then utf8Step4 b rest
      else none

/-- Fuel-driven iteration of `utf8Step`; the fuel only serves to make the
recursion structural, and `utf8Step` always consumes at least one byte,
so fuel equal to the input length never runs out. -/
def utf8DecodeAux : Nat → List Nat → Option (List Nat)
  | _, [] => some []
  | 0, _ :: _ => none
  | fuel + 1, b :: rest =>
      match utf8Step (b :: rest) with
      | none => none
      | some (cp, rest1) => (utf8DecodeAux fuel rest1).map (fun cs => cp :: cs)

/-- Strict UTF-8 decoding of a byte list to code points, as performed by
`bytes.decode('UTF-8')` in `_deobfuscate`: rejects stray continuation
bytes, overlong forms, surrogate code points, values above `0x10FFFF`,
and truncated sequences. -/
def utf8Decode (l : List Nat) : Option (List Nat) := utf8DecodeAux l.length l

/-- Single byte of the XOR keystream in `_deobfuscate`:
`hash_value = _compute_hash(host + username) % 256` followed by
`ord(chr(hash_value & 0xFF))`. -/
def keyByte (host username : String) : Nat :=
  ((computeHash (strCodes (host ++ username))) % 256).toNat &&& 0xFF

/-- Truncation loop at the end of `_deobfuscate`: append characters until
the first zero value, at which point the loop breaks. -/
def truncateAtZero : List Nat → List Nat
  | [] => []
  | c :: rest => if c = 0 then [] else c :: truncateAtZero rest

/-- `PasswordEntry._deobfuscate`: base64-decode the stored password,
interpret the bytes as UTF-8, XOR every code point with the constant key
byte derived from `hash(host + username) mod 256`, and keep the prefix up
to the first zero.  The base64 / UTF-8 failures Python raises as
exceptions are returned as `CredError.malformedEntry`. -/
def deobfuscate (host username password : String) : Except CredError (List Nat) :=
  match b64decode password with
  | none => Except.error CredError.malformedEntry
  | some bytes =>
    match utf8Decode bytes with
    | none => Except.error CredError.malformedEntry
    | some pw =>
      Except.ok (truncateAtZero (pw.map (fun c => c ^^^ keyByte host username)))

/-- One `<passwordEntry>` record: host, username and the still-obfuscated
base64 password text, exactly as stored by `PasswordEntry.__init__`. -/
structure PasswordEntry where
  host : String
  username : String
  password : String
deriving DecidableEq

/-- Host-keyed mapping `VICredStore.__hostdata`, modelled as a Python
dict: an insertion-ordered association list without duplicate keys. -/
abbrev HostData := List (String × PasswordEntry)

/-- One dict assignment `new_hostdata[entry.get_host()] = entry`: replace
the value in place when the key is present, append otherwise. -/
def dictInsert (m : HostData) (k : String) (v : PasswordEntry) : HostData :=
  if m.any (fun p => p.1 == k) then
    m.map (fun p => if p.1 == k then (k, v) else p)
  else m ++ [(k, v)]

/-- Dict indexing `self.__hostdata[hostname]`: `none` models the
`KeyError` branch. -/
def dictLookup (m : HostData) (k : String) : Option PasswordEntry :=
  (m.find? (fun p => p.1 == k)).map Prod.snd

/-- `VICredStore.__populate_data`: fold the entry list into a fresh dict,
keyed by host, later entries overwriting earlier ones. -/
def populate_data (entries : List PasswordEntry) : HostData :=
  entries.foldl (fun m e => dictInsert m e.host e) []

/-- `VICredStore.get_userpwd`: look the host up in `__hostdata`, raising
`HostNotFoundException` on a `KeyError`, otherwise return
`(entry.get_user(), entry.get_pwd())`.  The method only reads the store,
so the embedding passes the store state through unchanged. -/
def get_userpwd (store : HostData) (hostname : String) :
    Except CredError (String × List Nat) × HostData :=
  match dictLookup store hostname with
  | none => (Except.error CredError.hostNotFound, store)
  | some entry =>
      ((deobfuscate entry.host entry.username entry.password).map
        (fun pwd => (entry.username, pwd)), store)

/-- Lexicographic order on code-point lists: Python's `<=` between two
strings compares code points left to right, a strict prefix coming
first. -/
def codesLe : List Nat → List Nat → Bool
  | [], _ => true
  | _ :: _, [] => false
  | a :: s, b :: t => if a < b then true else if a = b then codesLe s t else false

/-- Python's string comparison used by `sorted`: lexicographic on code
points. -/
def hostLe (a b : String) : Prop := codesLe (strCodes a) (strCodes b) = true

instance : DecidableRel hostLe := fun _ _ => instDecidableEqBool _ _

/-- `VICredStore.list_entries`: iterate `sorted(self.__hostdata.keys())`.
Python's `sorted` is a stable comparison sort on the lexicographic
string order; it is modelled by insertion sort, and the printing side
effect by returning the sequence of hosts in the order they are
printed. -/
def list_entries (store : HostData) : List String :=
  List.insertionSort hostLe (store.map Prod.fst)

/-- Character of the standard base64 alphabet for a 6-bit value. -/
def b64AlphabetChar (v : Nat) : Char :=
  if v < 26 then Char.ofNat (v + 65)
  else if v < 52 then Char.ofNat (v + 71)
  else if v < 62 then Char.ofNat (v - 4)
  else if v = 62 then '+'
  else '/'

/-- Standard base64 encoding of a byte list, three bytes to four
characters, with `=` padding after a final group of one or two bytes. -/
def b64encodeBytes : List Nat → List Char
  | [] => []
  | [x] => [b64AlphabetChar (x / 4), b64AlphabetChar (x % 4 * 16), '=', '=']
  | [x, y] => [b64AlphabetChar (x / 4), b64AlphabetChar (x % 4 * 16 + y / 16),
               b64AlphabetChar (y % 16 * 4), '=']
  | x :: y :: z :: rest =>
      b64AlphabetChar (x / 4) :: b64AlphabetChar (x % 4 * 16 + y / 16) ::
        b64AlphabetChar (y % 16 * 4 + z / 64) :: b64AlphabetChar (z % 64) ::
        b64encodeBytes rest

/-- Strict UTF-8 encoding of one code point, as by `str.encode('UTF-8')`:
one to four bytes, rejecting surrogates and values of `0x110000` or
more. -/
def utf8EncodeChar (c : Nat) : Option (List Nat) :=
  if c < 0x80 then some [c]
  else if c < 0x800 then some [0xC0 + c / 64, 0x80 + c % 64]
  else if c < 0x10000 then
    if 0xD800 ≤ c ∧ c ≤ 0xDFFF then none
    else some [0xE0 + c / 4096, 0x80 + c / 64 % 64, 0x80 + c % 64]
  else if c < 0x110000 then
    some [0xF0 + c / 262144, 0x80 + c / 4096 % 64, 0x80 + c / 64 % 64, 0x80 + c % 64]
  else none

/-- Strict UTF-8 encoding of a code-point list. -/
def utf8Encode : List Nat → Option (List Nat)
  | [] => some []
  | c :: rest =>
    match utf8EncodeChar c, utf8Encode rest with
    | some bs, some bs1 => some (bs ++ bs1)
    | _, _ => none

/-- Modelled from the spec: the repository contains no encoder, and §4.1's
round-trip property defines `obfuscate` as applying the inverse of the
decode's step 4 (XOR each plaintext code point with the same constant key
byte derived from `hash(host + username) mod 256`) followed by the same
UTF-8 and base64 encoding of the result. -/
def obfuscate (host username plaintext : String) : Option String :=
  (utf8Encode ((strCodes plaintext).map (fun c => c ^^^ keyByte host username))).map
    (fun bytes => String.mk (b64encodeBytes bytes))

/-- `PasswordEntry.__hash__`: `hash(host) + hash(username) + hash(password)`.
Python's built-in string hash is per-process randomized, so the hash of a
single string is taken as a parameter `hs`. -/
def entryHash (hs : String → Int) (e : PasswordEntry) : Int :=
  hs e.host + hs e.username + hs e.password

/-- `PasswordEntry.__eq__` between two `PasswordEntry` values (the
`isinstance` branch): compare the two `__hash__` results. -/
def entryEq (hs : String → Int) (a b : PasswordEntry) : Bool :=
  entryHash hs a == entryHash hs b

end CredStore

deriving instance DecidableEq for Except

namespace CredStore

theorem signExtend32_lb (v : Int) : -2147483648 ≤ signExtend32 v := by
  unfold signExtend32
  have h1 : 0 ≤ v % 2147483648 := Int.emod_nonneg v (by norm_num)
  split <;> omega

theorem signExtend32_ub (v : Int) : signExtend32 v ≤ 2147483647 := by
  unfold signExtend32
  have h1 : v % 2147483648 < 2147483648 := Int.emod_lt_of_pos v (by norm_num)
  split <;> omega

theorem computeHash_foldl_range (text : List Nat) :
    ∀ h : Int, -2147483648 ≤ h → h ≤ 2147483647 →
      -2147483648 ≤ text.foldl (fun h c => signExtend32 (h * 31 + (c : Int))) h ∧
        text.foldl (fun h c => signExtend32 (h * 31 + (c : Int))) h ≤ 2147483647 := by
  induction text with
  | nil => intro h h1 h2; exact ⟨h1, h2⟩
  | cons c cs ih =>
      intro h _ _
      exact ih (signExtend32 (h * 31 + (c : Int))) (signExtend32_lb _) (signExtend32_ub _)

/-- C4: `compute_hash` is a function of its input (hence deterministic),
always lands in the signed 32-bit range `[-2^31, 2^31 - 1]` because each
multiply-add step is normalized by `signExtend32`, which is exactly
32-bit signed wraparound; and `compute_hash("") = 0`,
`compute_hash("a") = 97`. -/
theorem computeHash_spec :
    (∀ s : List Nat, -2 ^ 31 ≤ computeHash s ∧ computeHash s ≤ 2 ^ 31 - 1) ∧
    (∀ v : Int, signExtend32 v = (v + 2 ^ 31) % 2 ^ 32 - 2 ^ 31) ∧
    computeHash (strCodes "") = 0 ∧ computeHash (strCodes "a") = 97 := by
  refine ⟨fun s => ?_, fun v => ?_, by decide, by decide⟩
  · have := computeHash_foldl_range s 0 (by norm_num) (by norm_num)
    unfold computeHash
    constructor <;> [exact this.1; omega]
  · unfold signExtend32
    split <;> omega

set_option maxRecDepth 10000 in
/-- C1: on the spec's test vector — host `mytesthost`, username
`testuser`, the given base64 ciphertext — `_deobfuscate` returns exactly
`testpassword`. -/
theorem deobfuscate_test_vector :
    deobfuscate "mytesthost" "testuser"
        "NyYwNzMiMDA0LDEnQwY6EwoWFHsINgUwdCV1cg1wDyUtJBssG3cicRE7MQcVKxp1FhsOHBMrdSASNwoJCXM2cjUaOy0JJXsIFXN2EgAsKzUmeiU6EzIvcisrBAEIdg87IQs7JRI3DRwQMRsAMwIGJw8CAXQuDjslJRERKnEmB0M=" =
      Except.ok (strCodes "testpassword") := by
  decide

/-- C10: `_deobfuscate` depends on host and username only through their
separator-free concatenation, since the key byte is derived solely from
`_compute_hash(host + username) mod 256`. -/
theorem deobfuscate_concat_key (h u h' u' p : String) (hc : h ++ u = h' ++ u') :
    deobfuscate h u p = deobfuscate h' u' p := by
  unfold deobfuscate keyByte
  rw [hc]

/-- Witness for C10 at host `ab` / user `c` versus host `a` / user `bc`. -/
theorem deobfuscate_concat_key_witness :
    ("ab" ++ "c" = "a" ++ "bc") ∧
      deobfuscate "ab" "c" "QQ==" = deobfuscate "a" "bc" "QQ==" :=
  ⟨by decide, deobfuscate_concat_key "ab" "c" "a" "bc" "QQ==" (by decide)⟩

/-- C9 fails on the code: `__eq__` compares the sums
`hash(host) + hash(username) + hash(password)`, which is symmetric under
exchanging host and username, so entries with different fields can be
equal; the claimed "equal iff host, username and decoded password are
respectively equal" is therefore false whatever string hash the runtime
uses. -/
theorem entryEq_not_fields_iff :
    ¬ ∀ (hs : String → Int) (a b : PasswordEntry),
        (entryEq hs a b = true ↔
          (a.host = b.host ∧ a.username = b.username ∧
            deobfuscate a.host a.username a.password =
              deobfuscate b.host b.username b.password)) := by
  intro hall
  have h := (hall (fun _ => 0) ⟨"a", "b", ""⟩ ⟨"b", "a", ""⟩).mp (by decide)
  exact absurd h.1 (by decide)

/-- C9 amended: entries whose host, username and password fields are
respectively equal always compare equal, but the converse fails —
equality is equality of `hash(host) + hash(username) + hash(password)`,
so exchanging host and username yields entries that compare equal despite
different fields. -/
theorem entryEq_spec :
    (∀ (hs : String → Int) (a b : PasswordEntry),
        a.host = b.host → a.username = b.username → a.password = b.password →
          entryEq hs a b = true) ∧
    (∀ (hs : String → Int) (h u p : String),
        entryEq hs ⟨h, u, p⟩ ⟨u, h, p⟩ = true) := by
  constructor
  · intro hs a b h1 h2 h3
    unfold entryEq entryHash
    rw [h1, h2, h3]
    simp
  · intro hs h u p
    unfold entryEq entryHash
    simp only []
    rw [show hs h + hs u + hs p = hs u + hs h + hs p by ring]
    simp

/-- Witness for the amended C9 at concrete equal-field entries. -/
theorem entryEq_spec_witness :
    entryEq (fun _ => 0) ⟨"h", "u", "p"⟩ ⟨"h", "u", "p"⟩ = true :=
  entryEq_spec.1 (fun _ => 0) ⟨"h", "u", "p"⟩ ⟨"h", "u", "p"⟩ rfl rfl rfl

/-- C6: `get_userpwd` on a host absent from `__hostdata` fails with
`HostNotFoundException` and leaves the store state unchanged; on a
present host it returns the entry's username paired with the decoded
password. -/
theorem get_userpwd_spec (store : HostData) (h : String) :
    (dictLookup store h = none →
      get_userpwd store h = (Except.error CredError.hostNotFound, store)) ∧
    (∀ e pwd, dictLookup store h = some e →
      deobfuscate e.host e.username e.password = Except.ok pwd →
      get_userpwd store h = (Except.ok (e.username, pwd), store)) := by
  constructor
  · intro hn
    unfold get_userpwd
    rw [hn]
  · intro e pwd he hd
    simp only [get_userpwd, he, hd]
    rfl

/-- Witness for C6: a one-entry store, one absent and one present
lookup. -/
theorem get_userpwd_spec_witness :
    (dictLookup (populate_data [⟨"hosta", "usera", "QQ=="⟩]) "absent" = none ∧
      get_userpwd (populate_data [⟨"hosta", "usera", "QQ=="⟩]) "absent" =
        (Except.error CredError.hostNotFound,
          populate_data [⟨"hosta", "usera", "QQ=="⟩])) ∧
    (dictLookup (populate_data [⟨"hosta", "usera", "QQ=="⟩]) "hosta" =
        some ⟨"hosta", "usera", "QQ=="⟩ ∧
      deobfuscate "hosta" "usera" "QQ==" = Except.ok [156] ∧
      get_userpwd (populate_data [⟨"hosta", "usera", "QQ=="⟩]) "hosta" =
        (Except.ok ("usera", [156]),
          populate_data [⟨"hosta", "usera", "QQ=="⟩])) :=
  ⟨⟨by decide, (get_userpwd_spec (populate_data [⟨"hosta", "usera", "QQ=="⟩]) "absent").1
      (by decide)⟩,
   ⟨by decide, by decide,
    (get_userpwd_spec (populate_data [⟨"hosta", "usera", "QQ=="⟩]) "hosta").2
      ⟨"hosta", "usera", "QQ=="⟩ [156] (by decide) (by decide)⟩⟩

theorem getLast?_cons_or {α : Type} (a : α) (l : List α) :
    (a :: l).getLast? = l.getLast?.or (some a) := by
  induction l generalizing a with
  | nil => rfl
  | cons b l ih =>
      rw [List.getLast?_cons_cons, ih b, Option.or_assoc]
      rfl

theorem find?_update_ne (m : HostData) (k k' : String) (v : PasswordEntry)
    (hne : k' ≠ k) :
    (m.map (fun p => if p.1 == k then (k, v) else p)).find? (fun p => p.1 == k') =
      m.find? (fun p => p.1 == k') := by
  induction m with
  | nil => rfl
  | cons p m ih =>
      simp only [List.map_cons]
      by_cases hp : p.1 = k
      · have h1 : (p.1 == k) = true := beq_iff_eq.mpr hp
        have h2 : (k == k') = false := beq_eq_false_iff_ne.mpr (fun h => hne h.symm)
        have h3 : (p.1 == k') = false := by
          rw [hp]; exact beq_eq_false_iff_ne.mpr (fun h => hne h.symm)
        simp only [h1, if_true, List.find?_cons, h2, h3, ih]
      · have h1 : (p.1 == k) = false := beq_eq_false_iff_ne.mpr hp
        simp only [h1, Bool.false_eq_true, if_false, List.find?_cons, ih]

theorem find?_update_self (m : HostData) (k : String) (v : PasswordEntry)
    (hmem : m.any (fun p => p.1 == k) = true) :
    (m.map (fun p => if p.1 == k then (k, v) else p)).find? (fun p => p.1 == k) =
      some (k, v) := by
  induction m with
  | nil => simp at hmem
  | cons p m ih =>
      simp only [List.map_cons]
      by_cases hp : p.1 = k
      · have h1 : (p.1 == k) = true := beq_iff_eq.mpr hp
        simp [List.find?_cons, h1]
      · have h1 : (p.1 == k) = false := beq_eq_false_iff_ne.mpr hp
        simp only [List.any_cons, h1, Bool.false_or] at hmem
        simp only [h1, Bool.false_eq_true, if_false, List.find?_cons, ih hmem]

theorem dictLookup_dictInsert (m : HostData) (k k' : String) (v : PasswordEntry) :
    dictLookup (dictInsert m k v) k' =
      if k' = k then some v else dictLookup m k' := by
  unfold dictInsert dictLookup
  by_cases hany : m.any (fun p => p.1 == k) = true
  · rw [if_pos hany]
    by_cases hk : k' = k
    · subst hk
      rw [find?_update_self m k' v hany, if_pos rfl]
      rfl
    · rw [find?_update_ne m k k' v hk, if_neg hk]
  · rw [if_neg hany, List.find?_append]
    by_cases hk : k' = k
    · subst hk
      have hnone : m.find? (fun p => p.1 == k') = none := by
        rw [List.find?_eq_none]
        intro x hx hpx
        exact hany (List.any_eq_true.mpr ⟨x, hx, hpx⟩)
      rw [hnone, if_pos rfl]
      simp [List.find?_cons]
    · have h2 : ((k, v).1 == k') = false := beq_eq_false_iff_ne.mpr (fun h => hk h.symm)
      rw [if_neg hk]
      simp [List.find?_cons, h2, Option.or_none]

theorem dictLookup_populate_aux (es : List PasswordEntry) :
    ∀ (m : HostData) (h : String),
      dictLookup (es.foldl (fun m e => dictInsert m e.host e) m) h =
        ((es.filter (fun e => e.host == h)).getLast?).or (dictLookup m h) := by
  induction es with
  | nil => intro m h; simp
  | cons e es ih =>
      intro m h
      simp only [List.foldl_cons, List.filter_cons]
      rw [ih]
      by_cases he : e.host = h
      · rw [beq_iff_eq.mpr he, if_pos rfl, dictLookup_dictInsert, if_pos he.symm,
          getLast?_cons_or, Option.or_assoc]
        rfl
      · rw [beq_eq_false_iff_ne.mpr he, if_neg (by simp), dictLookup_dictInsert,
          if_neg (fun hh => he hh.symm)]

theorem keys_dictInsert (m : HostData) (k : String) (v : PasswordEntry) :
    (dictInsert m k v).map Prod.fst =
      if m.any (fun p => p.1 == k) then m.map Prod.fst
      else m.map Prod.fst ++ [k] := by
  unfold dictInsert
  split
  · rw [List.map_map]
    apply List.map_congr_left
    intro p _
    by_cases hpk : p.1 = k
    · simp [Function.comp, beq_iff_eq.mpr hpk, hpk]
    · simp [Function.comp, beq_eq_false_iff_ne.mpr hpk]
  · simp

theorem keys_nodup_aux (es : List PasswordEntry) :
    ∀ m : HostData, (m.map Prod.fst).Nodup →
      ((es.foldl (fun m e => dictInsert m e.host e) m).map Prod.fst).Nodup := by
  induction es with
  | nil => intro m hm; exact hm
  | cons e es ih =>
      intro m hm
      simp only [List.foldl_cons]
      apply ih
      rw [keys_dictInsert]
      split
      · exact hm
      · rename_i hany
        rw [List.nodup_append]
        refine ⟨hm, List.nodup_singleton _, ?_⟩
        intro a ha hb
        simp only [List.mem_singleton] at hb
        subst hb
        apply hany
        obtain ⟨p, hp, hfst⟩ := List.mem_map.mp ha
        exact List.any_eq_true.mpr ⟨p, hp, beq_iff_eq.mpr hfst⟩

/-- C5: the store built by `__populate_data` maps each host to at most
one entry (its key list has no duplicates), lookup of a host returns
exactly the last entry of the input sequence carrying that host —
overwrite semantics, not merge or error — and `get_userpwd` then decodes
with that last entry's fields. -/
theorem populate_data_spec (es : List PasswordEntry) (h : String) :
    dictLookup (populate_data es) h =
      (es.filter (fun e => e.host == h)).getLast? ∧
    ((populate_data es).map Prod.fst).Nodup ∧
    (∀ e, (es.filter (fun x => x.host == h)).getLast? = some e →
      (get_userpwd (populate_data es) h).1 =
        (deobfuscate e.host e.username e.password).map (fun pwd => (e.username, pwd))) := by
  refine ⟨?_, ?_, ?_⟩
  · unfold populate_data
    rw [dictLookup_populate_aux]
    simp [dictLookup]
  · exact keys_nodup_aux es [] (by simp)
  · intro e he
    have h1 : dictLookup (populate_data es) h = some e := by
      unfold populate_data
      rw [dictLookup_populate_aux]
      simp [dictLookup, he]
    simp only [get_userpwd, h1]

/-- Witness for C5 on the spec's duplicate-host example: of two entries
for host `h`, lookup decodes with the second entry's fields. -/
theorem populate_data_spec_witness :
    (([⟨"h", "u1", "QQ=="⟩, ⟨"h", "u2", "QQ=="⟩] :
        List PasswordEntry).filter (fun x => x.host == "h")).getLast? =
      some ⟨"h", "u2", "QQ=="⟩ ∧
    (get_userpwd (populate_data [⟨"h", "u1", "QQ=="⟩, ⟨"h", "u2", "QQ=="⟩]) "h").1 =
      (deobfuscate "h" "u2" "QQ==").map (fun pwd => ("u2", pwd)) :=
  ⟨by decide,
   (populate_data_spec [⟨"h", "u1", "QQ=="⟩, ⟨"h", "u2", "QQ=="⟩] "h").2.2
     ⟨"h", "u2", "QQ=="⟩ (by decide)⟩

/-- C7: a password that fails base64 decoding, or whose decoded bytes
fail UTF-8 decoding, makes `_deobfuscate` return the typed
`malformedEntry` error rather than terminate the process; store
construction never decodes (it is total on any entry list), and an extra
entry for a different host — malformed or not — never changes the lookup
result of another host. -/
theorem malformedEntry_spec :
    (∀ h u p, b64decode p = none →
        deobfuscate h u p = Except.error CredError.malformedEntry) ∧
    (∀ h u p bs, b64decode p = some bs → utf8Decode bs = none →
        deobfuscate h u p = Except.error CredError.malformedEntry) ∧
    (∀ (es : List PasswordEntry) (e : PasswordEntry) (h : String), e.host ≠ h →
        (get_userpwd (populate_data (es ++ [e])) h).1 =
          (get_userpwd (populate_data es) h).1) := by
  refine ⟨?_, ?_, ?_⟩
  · intro h u p hb
    simp only [deobfuscate, hb]
  · intro h u p bs hb hu
    simp only [deobfuscate, hb, hu]
  · intro es e h hne
    have hfil : (es ++ [e]).filter (fun x => x.host == h) =
        es.filter (fun x => x.host == h) := by
      rw [List.filter_append]
      simp [beq_eq_false_iff_ne.mpr hne]
    have h1 : dictLookup (populate_data (es ++ [e])) h =
        dictLookup (populate_data es) h := by
      unfold populate_data
      rw [dictLookup_populate_aux, dictLookup_populate_aux, hfil]
    unfold get_userpwd
    rw [h1]
    cases dictLookup (populate_data es) h <;> rfl

/-- Witness for C7: `AB=` is not valid base64 (padding after only two
data characters leaves the quad incomplete); `gA==` decodes to the byte
`0x80`, which is not valid UTF-8; and an entry for host `x` does not
change the lookup of host `y`. -/
theorem malformedEntry_spec_witness :
    (b64decode "AB=" = none ∧
      deobfuscate "h" "u" "AB=" = Except.error CredError.malformedEntry) ∧
    (b64decode "gA==" = some [128] ∧ utf8Decode [128] = none ∧
      deobfuscate "h" "u" "gA==" = Except.error CredError.malformedEntry) ∧
    (("x" : String) ≠ "y" ∧
      (get_userpwd (populate_data ([] ++ [⟨"x", "u", "p"⟩])) "y").1 =
        (get_userpwd (populate_data []) "y").1) :=
  ⟨⟨by decide, malformedEntry_spec.1 "h" "u" "AB=" (by decide)⟩,
   ⟨by decide, by decide,
    malformedEntry_spec.2.1 "h" "u" "gA==" [128] (by decide) (by decide)⟩,
   ⟨by decide, malformedEntry_spec.2.2 [] ⟨"x", "u", "p"⟩ "y" (by decide)⟩⟩

theorem codesLe_cons_iff (a b : Nat) (s t : List Nat) :
    codesLe (a :: s) (b :: t) = true ↔ (a < b ∨ (a = b ∧ codesLe s t = true)) := by
  simp only [codesLe]
  by_cases h1 : a < b
  · simp [h1]
  · by_cases h2 : a = b
    · simp [h1, h2]
    · simp [h1, h2]

theorem codesLe_total (s t : List Nat) : codesLe s t = true ∨ codesLe t s = true := by
  induction s generalizing t with
  | nil => left; rfl
  | cons a s ih =>
      cases t with
      | nil => right; rfl
      | cons b t =>
          rw [codesLe_cons_iff, codesLe_cons_iff]
          rcases Nat.lt_trichotomy a b with h | h | h
          · exact Or.inl (Or.inl h)
          · subst h
            rcases ih t with h' | h'
            · exact Or.inl (Or.inr ⟨rfl, h'⟩)
            · exact Or.inr (Or.inr ⟨rfl, h'⟩)
          · exact Or.inr (Or.inl h)

theorem codesLe_trans (s t u : List Nat) (h1 : codesLe s t = true)
    (h2 : codesLe t u = true) : codesLe s u = true := by
  induction s generalizing t u with
  | nil => rfl
  | cons a s ih =>
      cases t with
      | nil => simp [codesLe] at h1
      | cons b t =>
          cases u with
          | nil => simp [codesLe] at h2
          | cons c u =>
              rw [codesLe_cons_iff] at h1 h2 ⊢
              rcases h1 with h1 | ⟨rfl, h1⟩
              · rcases h2 with h2 | ⟨rfl, _⟩
                · exact Or.inl (by omega)
                · exact Or.inl h1
              · rcases h2 with h2 | ⟨rfl, h2⟩
                · exact Or.inl h2
                · exact Or.inr ⟨rfl, ih t u h1 h2⟩

/-- C8: `list_entries` yields the hosts of the store in lexicographically
sorted order — the output is sorted under the lexicographic code-point
order `hostLe` and is a permutation of the store's keys — and on hosts
inserted as `zeta`, `alpha`, `mid` it yields `alpha`, `mid`, `zeta`. -/
theorem list_entries_spec :
    (∀ store : HostData,
        List.Pairwise hostLe (list_entries store) ∧
        List.Perm (list_entries store) (store.map Prod.fst)) ∧
    list_entries (populate_data
        [⟨"zeta", "u1", "p1"⟩, ⟨"alpha", "u2", "p2"⟩, ⟨"mid", "u3", "p3"⟩]) =
      ["alpha", "mid", "zeta"] := by
  have htot : IsTotal String hostLe := ⟨fun a b => codesLe_total _ _⟩
  have htrans : IsTrans String hostLe := ⟨fun a b c => codesLe_trans _ _ _⟩
  refine ⟨fun store => ⟨?_, ?_⟩, ?_⟩
  · exact @List.sorted_insertionSort String hostLe _ htot htrans _
  · exact List.perm_insertionSort _ _
  · decide

theorem truncateAtZero_eq_takeWhile (l : List Nat) :
    truncateAtZero l = l.takeWhile (fun c => c != 0) := by
  induction l with
  | nil => rfl
  | cons c l ih =>
      simp only [truncateAtZero, List.takeWhile_cons]
      by_cases hc : c = 0
      · simp [hc]
      · simp [hc, ih]

theorem mem_truncateAtZero {l : List Nat} {c : Nat} (h : c ∈ truncateAtZero l) :
    c ≠ 0 := by
  induction l with
  | nil => simp [truncateAtZero] at h
  | cons a l ih =>
      simp only [truncateAtZero] at h
      by_cases ha : a = 0
      · simp [ha] at h
      · rw [if_neg ha] at h
        rcases List.mem_cons.mp h with rfl | h'
        · exact ha
        · exact ih h'

/-- C3: when both decodings succeed, `_deobfuscate` returns exactly the
prefix of the XOR-decoded buffer up to (not including) the first zero
value — the whole buffer when no zero occurs, this being `takeWhile` —
and consequently every code point of a returned password is nonzero. -/
theorem deobfuscate_termination_rule :
    (∀ h u p bs cs, b64decode p = some bs → utf8Decode bs = some cs →
        deobfuscate h u p = Except.ok
          ((cs.map (fun c => c ^^^ keyByte h u)).takeWhile (fun c => c != 0))) ∧
    (∀ h u p pwd, deobfuscate h u p = Except.ok pwd → ∀ c ∈ pwd, c ≠ 0) := by
  constructor
  · intro h u p bs cs hb hu
    simp only [deobfuscate, hb, hu, truncateAtZero_eq_takeWhile]
  · intro h u p pwd hok c hc
    cases hb : b64decode p with
    | none => exact absurd (by simp only [deobfuscate, hb] at hok; exact hok) (by simp)
    | some bs =>
        cases hu : utf8Decode bs with
        | none =>
            simp only [deobfuscate, hb, hu] at hok
            exact Except.noConfusion hok
        | some cs =>
            simp only [deobfuscate, hb, hu, Except.ok.injEq] at hok
            subst hok
            exact mem_truncateAtZero hc

/-- Witness for C3 on the ciphertext `QQ==` with host `h`, user `u` (key
byte 13): the password is the truncated XOR buffer `[76]`, all nonzero. -/
theorem deobfuscate_termination_rule_witness :
    (b64decode "QQ==" = some [65] ∧ utf8Decode [65] = some [65] ∧
      deobfuscate "h" "u" "QQ==" = Except.ok
        (([65].map (fun c => c ^^^ keyByte "h" "u")).takeWhile (fun c => c != 0))) ∧
    (deobfuscate "h" "u" "QQ==" = Except.ok [76] ∧ ∀ c ∈ ([76] : List Nat), c ≠ 0) :=
  ⟨⟨by decide, by decide,
    deobfuscate_termination_rule.1 "h" "u" "QQ==" [65] [65] (by decide) (by decide)⟩,
   ⟨by decide, deobfuscate_termination_rule.2 "h" "u" "QQ==" [76] (by decide)⟩⟩

theorem b64CharVal_pad : b64CharVal '=' = some B64Tok.pad := rfl

theorem b64CharVal_alphabet (v : Nat) (hv : v < 64) :
    b64CharVal (b64AlphabetChar v) = some (B64Tok.val v) := by
  have hall : ∀ w, w < 64 → b64CharVal (b64AlphabetChar w) = some (B64Tok.val w) := by
    decide
  exact hall v hv

theorem b64AlphabetChar_ascii (v : Nat) (hv : v < 64) :
    (b64AlphabetChar v).toNat < 128 := by
  have hall : ∀ w, w < 64 → (b64AlphabetChar w).toNat < 128 := by decide
  exact hall v hv

theorem b64encodeBytes_ascii :
    ∀ (bs : List Nat), (∀ b ∈ bs, b < 256) →
      ∀ c ∈ b64encodeBytes bs, c.toNat < 128
  | [], _ => by
      intro c hc
      simp [b64encodeBytes] at hc
  | [x], hb => by
      have hx : x < 256 := hb x (by simp)
      intro c hc
      simp only [b64encodeBytes, List.mem_cons, List.not_mem_nil, or_false] at hc
      rcases hc with rfl | rfl | rfl | rfl
      · exact b64AlphabetChar_ascii _ (by omega)
      · exact b64AlphabetChar_ascii _ (by omega)
      · decide
      · decide
  | [x, y], hb => by
      have hx : x < 256 := hb x (by simp)
      have hy : y < 256 := hb y (by simp)
      intro c hc
      simp only [b64encodeBytes, List.mem_cons, List.not_mem_nil, or_false] at hc
      rcases hc with rfl | rfl | rfl | rfl
      · exact b64AlphabetChar_ascii _ (by omega)
      · exact b64AlphabetChar_ascii _ (by omega)
      · exact b64AlphabetChar_ascii _ (by omega)
      · decide
  | x :: y :: z :: rest, hb => by
      have hx : x < 256 := hb x (by simp)
      have hy : y < 256 := hb y (by simp)
      have hz : z < 256 := hb z (by simp)
      intro c hc
      simp only [b64encodeBytes, List.mem_cons] at hc
      rcases hc with rfl | rfl | rfl | rfl | hc
      · exact b64AlphabetChar_ascii _ (by omega)
      · exact b64AlphabetChar_ascii _ (by omega)
      · exact b64AlphabetChar_ascii _ (by omega)
      · exact b64AlphabetChar_ascii _ (by omega)
      · exact b64encodeBytes_ascii rest (fun b hbm => hb b (by simp [hbm])) c hc

theorem a2bBase64_encodeBytes :
    ∀ (bs : List Nat), (∀ b ∈ bs, b < 256) →
      a2bBase64 0 0 0 (b64encodeBytes bs) = some bs
  | [], _ => rfl
  | [x], hb => by
      have hx : x < 256 := hb x (by simp)
      have h1 : x / 4 < 64 := by omega
      have h2 : x % 4 * 16 < 64 := by omega
      have e1 : x / 4 * 4 + x % 4 * 16 / 16 = x := by omega
      simp only [b64encodeBytes, a2bBase64, b64CharVal_alphabet _ h1,
        b64CharVal_alphabet _ h2, b64CharVal_pad]
      norm_num [e1]
      omega
  | [x, y], hb => by
      have hx : x < 256 := hb x (by simp)
      have hy : y < 256 := hb y (by simp)
      have h1 : x / 4 < 64 := by omega
      have h2 : x % 4 * 16 + y / 16 < 64 := by omega
      have h3 : y % 16 * 4 < 64 := by omega
      have e1 : x / 4 * 4 + (x % 4 * 16 + y / 16) / 16 = x := by omega
      have e2 : (x % 4 * 16 + y / 16) % 16 * 16 + y % 16 * 4 / 4 = y := by omega
      simp only [b64encodeBytes, a2bBase64, b64CharVal_alphabet _ h1,
        b64CharVal_alphabet _ h2, b64CharVal_alphabet _ h3, b64CharVal_pad]
      norm_num [e1, e2]
      omega
  | x :: y :: z :: rest, hb => by
      have hx : x < 256 := hb x (by simp)
      have hy : y < 256 := hb y (by simp)
      have hz : z < 256 := hb z (by simp)
      have h1 : x / 4 < 64 := by omega
      have h2 : x % 4 * 16 + y / 16 < 64 := by omega
      have h3 : y % 16 * 4 + z / 64 < 64 := by omega
      have h4 : z % 64 < 64 := by omega
      have e1 : x / 4 * 4 + (x % 4 * 16 + y / 16) / 16 = x := by omega
      have e2 : (x % 4 * 16 + y / 16) % 16 * 16 + (y % 16 * 4 + z / 64) / 4 = y := by omega
      have e3 : (y % 16 * 4 + z / 64) % 4 * 64 + z % 64 = z := by omega
      have ih := a2bBase64_encodeBytes rest (fun b hbm => hb b (by simp [hbm]))
      simp only [b64encodeBytes, a2bBase64, b64CharVal_alphabet _ h1,
        b64CharVal_alphabet _ h2, b64CharVal_alphabet _ h3, b64CharVal_alphabet _ h4]
      norm_num [e1, e2, e3, ih]

theorem b64decode_encodeBytes (bs : List Nat) (hb : ∀ b ∈ bs, b < 256) :
    b64decode (String.mk (b64encodeBytes bs)) = some bs := by
  unfold b64decode
  have hall : ((String.mk (b64encodeBytes bs)).data.all (fun c => c.toNat < 128)) = true := by
    rw [List.all_eq_true]
    intro c hc
    simpa using b64encodeBytes_ascii bs hb c hc
  rw [if_pos hall]
  exact a2bBase64_encodeBytes bs hb

theorem utf8EncodeChar_bytes_lt (c : Nat) (bs : List Nat)
    (h : utf8EncodeChar c = some bs) : ∀ b ∈ bs, b < 256 := by
  unfold utf8EncodeChar at h
  split_ifs at h with h1 h2 h3 h4 h5
  · injection h with h'
    subst h'
    intro b hb
    simp only [List.mem_singleton] at hb
    omega
  · injection h with h'
    subst h'
    intro b hb
    simp only [List.mem_cons, List.not_mem_nil, or_false] at hb
    rcases hb with rfl | rfl <;> omega
  · injection h with h'
    subst h'
    intro b hb
    simp only [List.mem_cons, List.not_mem_nil, or_false] at hb
    rcases hb with rfl | rfl | rfl <;> omega
  · injection h with h'
    subst h'
    intro b hb
    simp only [List.mem_cons, List.not_mem_nil, or_false] at hb
    rcases hb with rfl | rfl | rfl | rfl <;> omega

theorem utf8Encode_bytes_lt :
    ∀ (cs bs : List Nat), utf8Encode cs = some bs → ∀ b ∈ bs, b < 256
  | [], bs, h => by
      injection h with h'
      subst h'
      intro b hb
      simp at hb
  | c :: cs, bs, h => by
      cases hc : utf8EncodeChar c with
      | none =>
          simp only [utf8Encode, hc] at h
          exact Option.noConfusion h
      | some cb =>
          cases hr : utf8Encode cs with
          | none =>
              simp only [utf8Encode, hc, hr] at h
              exact Option.noConfusion h
          | some rb =>
              simp only [utf8Encode, hc, hr] at h
              injection h with h'
              subst h'
              intro b hb
              rcases List.mem_append.mp hb with hb' | hb'
              · exact utf8EncodeChar_bytes_lt c cb hc b hb'
              · exact utf8Encode_bytes_lt cs rb hr b hb'

theorem utf8Step2_tail_le (b : Nat) (rest : List Nat) (cp : Nat) (rest1 : List Nat)
    (h : utf8Step2 b rest = some (cp, rest1)) : rest1.length ≤ rest.length := by
  cases rest with
  | nil => exact Option.noConfusion h
  | cons c1 r =>
      simp only [utf8Step2] at h
      split_ifs at h
      injection h with h'
      injection h' with h1 h2
      subst h2
      simp

theorem utf8Step3_tail_le (b : Nat) (rest : List Nat) (cp : Nat) (rest1 : List Nat)
    (h : utf8Step3 b rest = some (cp, rest1)) : rest1.length ≤ rest.length := by
  match rest, h with
  | c1 :: c2 :: r, h => ?_
  case _ =>
    simp only [utf8Step3] at h
    split_ifs at h
    injection h with h'
    injection h' with h1 h2
    subst h2
    simp
    omega

theorem utf8Step4_tail_le (b : Nat) (rest : List Nat) (cp : Nat) (rest1 : List Nat)
    (h : utf8Step4 b rest = some (cp, rest1)) : rest1.length ≤ rest.length := by
  match rest, h with
  | c1 :: c2 :: c3 :: r, h => ?_
  case _ =>
    simp only [utf8Step4] at h
    split_ifs at h
    injection h with h'
    injection h' with h1 h2
    subst h2
    simp
    omega

theorem utf8Step_tail_le (b : Nat) (rest : List Nat) (cp : Nat) (rest1 : List Nat)
    (h : utf8Step (b :: rest) = some (cp, rest1)) : rest1.length ≤ rest.length := by
  simp only [utf8Step] at h
  split_ifs at h with h1 h2 h3 h4 h5
  · injection h with h'
    injection h' with hc hr
    subst hr
    exact Nat.le_refl _
  · exact utf8Step2_tail_le b rest cp rest1 h
  · exact utf8Step3_tail_le b rest cp rest1 h
  · exact utf8Step4_tail_le b rest cp rest1 h

theorem utf8DecodeAux_irrel :
    ∀ (fuel fuel' : Nat) (l : List Nat), l.length ≤ fuel → l.length ≤ fuel' →
      utf8DecodeAux fuel l = utf8DecodeAux fuel' l
  | _, _, [], _, _ => by simp only [utf8DecodeAux]
  | 0, _, b :: rest, hf, _ => by simp at hf
  | _ + 1, 0, b :: rest, _, hf' => by simp at hf'
  | f + 1, f' + 1, b :: rest, hf, hf' => by
      simp only [utf8DecodeAux]
      cases hstep : utf8Step (b :: rest) with
      | none => rfl
      | some pr =>
          obtain ⟨cp, rest1⟩ := pr
          have hlen := utf8Step_tail_le b rest cp rest1 hstep
          simp only [List.length_cons] at hf hf'
          simp only [utf8DecodeAux_irrel f f' rest1 (by omega) (by omega)]

theorem utf8Decode_step_some (l : List Nat) (cp : Nat) (rest1 : List Nat)
    (h : utf8Step l = some (cp, rest1)) :
    utf8Decode l = (utf8Decode rest1).map (fun cs => cp :: cs) := by
  cases l with
  | nil => exact Option.noConfusion h
  | cons b rest =>
      have hlen := utf8Step_tail_le b rest cp rest1 h
      unfold utf8Decode
      simp only [List.length_cons, utf8DecodeAux, h]
      rw [utf8DecodeAux_irrel rest.length rest1.length rest1 hlen (Nat.le_refl _)]

theorem utf8Step_encodeChar (c : Nat) (bs : List Nat)
    (h : utf8EncodeChar c = some bs) (rest : List Nat) :
    utf8Step (bs ++ rest) = some (c, rest) := by
  unfold utf8EncodeChar at h
  split_ifs at h with h1 h2 h3 h4 h5
  · injection h with h'
    subst h'
    simp only [List.cons_append, List.nil_append, utf8Step]
    rw [if_pos h1]
  · injection h with h'
    subst h'
    simp only [List.cons_append, List.nil_append, utf8Step]
    rw [if_neg (by omega), if_neg (by omega), if_pos (by omega), utf8Step2,
      if_pos (by omega)]
    have e : (0xC0 + c / 64 - 0xC0) * 64 + (0x80 + c % 64 - 0x80) = c := by omega
    rw [e]
  · injection h with h'
    subst h'
    simp only [List.cons_append, List.nil_append, utf8Step]
    have e : (0xE0 + c / 4096 - 0xE0) * 4096 + (0x80 + c / 64 % 64 - 0x80) * 64 +
        (0x80 + c % 64 - 0x80) = c := by omega
    rw [if_neg (by omega), if_neg (by omega), if_neg (by omega), if_pos (by omega),
      utf8Step3, if_pos (by omega), if_pos (by rw [e]; exact ⟨by omega, h4⟩)]
    rw [e]
  · injection h with h'
    subst h'
    simp only [List.cons_append, List.nil_append, utf8Step]
    have e : (0xF0 + c / 262144 - 0xF0) * 262144 + (0x80 + c / 4096 % 64 - 0x80) * 4096 +
        (0x80 + c / 64 % 64 - 0x80) * 64 + (0x80 + c % 64 - 0x80) = c := by omega
    rw [if_neg (by omega), if_neg (by omega), if_neg (by omega), if_neg (by omega),
      if_pos (by omega), utf8Step4, if_pos (by omega), if_pos (by rw [e]; omega)]
    rw [e]

theorem utf8Decode_encodeChar_append (c : Nat) (bs rest : List Nat)
    (h : utf8EncodeChar c = some bs) :
    utf8Decode (bs ++ rest) = (utf8Decode rest).map (fun cs => c :: cs) :=
  utf8Decode_step_some (bs ++ rest) c rest (utf8Step_encodeChar c bs h rest)

theorem utf8Decode_encode :
    ∀ (cs bs : List Nat), utf8Encode cs = some bs → utf8Decode bs = some cs
  | [], bs, h => by
      injection h with h'
      subst h'
      rfl
  | c :: cs, bs, h => by
      cases hc : utf8EncodeChar c with
      | none =>
          simp only [utf8Encode, hc] at h
          exact Option.noConfusion h
      | some cb =>
          cases hr : utf8Encode cs with
          | none =>
              simp only [utf8Encode, hc, hr] at h
              exact Option.noConfusion h
          | some rb =>
              simp only [utf8Encode, hc, hr] at h
              injection h with h'
              subst h'
              rw [utf8Decode_encodeChar_append c cb rb hc, utf8Decode_encode cs rb hr]
              rfl

theorem xor_map_cancel (k : Nat) (l : List Nat) :
    (l.map (fun c => c ^^^ k)).map (fun c => c ^^^ k) = l := by
  induction l with
  | nil => rfl
  | cons a l ih => simp [ih, Nat.xor_assoc]

theorem truncateAtZero_of_ne_zero (l : List Nat) (h : ∀ c ∈ l, c ≠ 0) :
    truncateAtZero l = l := by
  induction l with
  | nil => rfl
  | cons a l ih =>
      simp only [truncateAtZero, if_neg (h a (by simp))]
      rw [ih (fun c hc => h c (by simp [hc]))]

theorem deobfuscate_eq_of_decodes (h u p : String) (bs cs : List Nat)
    (hb : b64decode p = some bs) (hu : utf8Decode bs = some cs) :
    deobfuscate h u p =
      Except.ok (truncateAtZero (cs.map (fun c => c ^^^ keyByte h u))) := by
  simp only [deobfuscate, hb, hu]

/-- C2: for any host, username and NUL-free plaintext for which the
spec-defined `obfuscate` (XOR with the same constant key byte, then UTF-8
and base64 encoding) produces a ciphertext, `_deobfuscate` recovers the
plaintext exactly. -/
theorem deobfuscate_obfuscate_roundtrip (host username plaintext cipher : String)
    (hnz : ∀ c ∈ strCodes plaintext, c ≠ 0)
    (hob : obfuscate host username plaintext = some cipher) :
    deobfuscate host username cipher = Except.ok (strCodes plaintext) := by
  unfold obfuscate at hob
  cases henc : utf8Encode ((strCodes plaintext).map (fun c => c ^^^ keyByte host username)) with
  | none =>
      rw [henc] at hob
      exact Option.noConfusion hob
  | some bytes =>
      rw [henc] at hob
      simp only [Option.map_some', Option.some.injEq] at hob
      subst hob
      have hB : b64decode (String.mk (b64encodeBytes bytes)) = some bytes :=
        b64decode_encodeBytes bytes (utf8Encode_bytes_lt _ _ henc)
      have hU : utf8Decode bytes =
          some ((strCodes plaintext).map (fun c => c ^^^ keyByte host username)) :=
        utf8Decode_encode _ _ henc
      rw [deobfuscate_eq_of_decodes _ _ _ _ _ hB hU, xor_map_cancel,
        truncateAtZero_of_ne_zero _ hnz]

/-- Witness for C2: host `h`, user `u` (key byte 13), plaintext `hi`
obfuscates to `ZWQ=` and decodes back to `hi`. -/
theorem deobfuscate_obfuscate_roundtrip_witness :
    (∀ c ∈ strCodes "hi", c ≠ 0) ∧ obfuscate "h" "u" "hi" = some "ZWQ=" ∧
      deobfuscate "h" "u" "ZWQ=" = Except.ok (strCodes "hi") :=
  ⟨by decide, by decide,
    deobfuscate_obfuscate_roundtrip "h" "u" "hi" "ZWQ=" (by decide) (by decide)⟩

end CredStore
